import Mathlib

/-!
# Verification of `download_model.py`

A shallow embedding of the repository's single script, which downloads a
model archive, extracts it into an assets directory, renames the extracted
`.tflite` file and label `.txt` file to canonical names, and deletes the
archive.

Modelling conventions:
* A directory is an association list from file names to file data, in
  enumeration order; `listdir` returns the names in that order (the script's
  `os.listdir` order is unspecified, so theorems about order are stated
  relative to this enumeration).
* File contents are opaque (`Nat`); the downloaded blob is either a valid
  ZIP archive carrying its entry list, or raw non-ZIP bytes.
* Archive entries are modelled as immediate file names placed directly in
  the assets directory (the archive at the fixed URL is flat), and
  extraction is atomic in the entry list.
* Fallible filesystem operations return `Option`; the pipeline records the
  printable status lines and the propagated error, mirroring the script's
  prints and unhandled exceptions.
-/

namespace DownloadModel

/-- A file name inside the assets directory. -/
abbrev Name := String

/-- Contents of a file: either a well-formed ZIP archive (with its flat
entry list, each entry carrying opaque bytes), or plain bytes.  Plain bytes
at the archive path mean `zipfile.ZipFile` raises `BadZipFile`. -/
inductive FileData where
  | zipArchive (entries : List (Name × Nat)) : FileData
  | raw (bytes : Nat) : FileData
  deriving DecidableEq, Repr

/-- The assets directory: an association list of named files, in the order
`os.listdir` enumerates them. -/
abbrev Dir := List (Name × FileData)

/-- Errors the script can die with (unhandled Python exceptions). -/
inductive PipeError where
  | urlError : PipeError
  | badZipFile : PipeError
  | fileNotFound (n : Name) : PipeError
  deriving DecidableEq, Repr

/-- Result of a run: final directory, printed status lines, and the
unhandled error if the script aborted (`none` = exit status 0). -/
structure Result where
  dir : Dir
  msgs : List String
  err : Option PipeError
  deriving DecidableEq, Repr

/-! ## Constants of the script -/

/-- `ZIP_PATH`: name of the downloaded archive inside the assets dir. -/
def ZIP_PATH : Name := "model.zip"

/-- Canonical model file name used by `shutil.move`. -/
def MODEL_NAME : Name := "ssd_mobilenet_v1.tflite"

/-- Canonical label file name used by `shutil.move`. -/
def LABEL_NAME : Name := "labelmap.txt"

def MSG_DOWNLOADING : String := "Downloading SSD MobileNet V1 TFLite model..."
def MSG_COMPLETE : String := "Download complete."
def MSG_EXTRACTING : String := "Extracting model files..."
def MSG_MODEL_SAVED : String := "Model saved as: ssd_mobilenet_v1.tflite"
def MSG_LABEL_SAVED : String := "Labels saved as: labelmap.txt"
def MSG_DONE : String := "Done! Model and labels are ready in the assets/ folder."

/-! ## Naming rules of the rename loop -/

/-- Contiguous-sublist test on character lists, mirroring Python's
substring operator `in`. -/
def containsSub (needle : List Char) : List Char → Bool
  | [] => needle.isEmpty
  | c :: rest => needle.isPrefixOf (c :: rest) || containsSub needle rest

/-- `f.endswith(".tflite")` — the model-file rule of line 29. -/
def matchesModel (f : Name) : Bool :=
  ".tflite".data.isSuffixOf f.data

/-- `"label" in f.lower() and f.endswith(".txt")` — the label-file rule of
line 34. -/
def matchesLabel (f : Name) : Bool :=
  containsSub "label".data (f.data.map Char.toLower) && ".txt".data.isSuffixOf f.data

/-! ## Directory operations -/

/-- Look a name up in the directory (first entry wins). -/
def lookupD : Dir → Name → Option FileData
  | [], _ => none
  | (k, v) :: es, n => if k = n then some v else lookupD es n

/-- Write a file: overwrite in place when the name exists, else append. -/
def writeD : Dir → Name → FileData → Dir
  | [], n, v => [(n, v)]
  | (k, w) :: es, n, v => if k = n then (k, v) :: es else (k, w) :: writeD es n v

/-- Delete a file by name. -/
def removeD : Dir → Name → Dir
  | [], _ => []
  | (k, w) :: es, n => if k = n then removeD es n else (k, w) :: removeD es n

/-- The names in the directory, in enumeration order (`os.listdir`). -/
def listdir (d : Dir) : List Name := d.map Prod.fst

/-- `shutil.move src dst`: read the source, remove it, write the
destination.  `none` when the source is missing (Python raises). -/
def moveFile (d : Dir) (src dst : Name) : Option Dir :=
  match lookupD d src with
  | none => none
  | some v => some (writeD (removeD d src) dst v)

/-- `os.remove`: fails (`none`) when the file is missing. -/
def osRemove (d : Dir) (n : Name) : Option Dir :=
  match lookupD d n with
  | none => none
  | some _ => some (removeD d n)

/-- `z.extractall(ASSETS_DIR)`: write every entry, in order, into the
directory. -/
def extractAll (d : Dir) : List (Name × Nat) → Dir
  | [] => d
  | (n, c) :: es => extractAll (writeD d n (FileData.raw c)) es

/-! ## The rename loop (lines 28–38) -/

/-- One iteration of the `for f in os.listdir(...)` loop: the `if/elif`
chain with the model rule tested first. -/
def renameStep (d : Dir) (ms : List String) (f : Name) :
    (Dir × List String) × Option PipeError :=
  if matchesModel f then
    match moveFile d f MODEL_NAME with
    | some d' => ((d', ms ++ [MSG_MODEL_SAVED]), none)
    | none => ((d, ms), some (.fileNotFound f))
  else if matchesLabel f then
    match moveFile d f LABEL_NAME with
    | some d' => ((d', ms ++ [MSG_LABEL_SAVED]), none)
    | none => ((d, ms), some (.fileNotFound f))
  else ((d, ms), none)

/-- The loop body applied to a snapshot of names, stopping at the first
unhandled error. -/
def renameGo (d : Dir) (ms : List String) : List Name → Dir × List String × Option PipeError
  | [] => (d, ms, none)
  | f :: fs =>
    match renameStep d ms f with
    | ((d', ms'), none) => renameGo d' ms' fs
    | ((d', ms'), some e) => (d', ms', some e)

/-- The whole rename step: iterate over `os.listdir` of the current
directory. -/
def renameFiles (d : Dir) (ms : List String) : Dir × List String × Option PipeError :=
  renameGo d ms (listdir d)

/-- The cleanup tail of the script: `os.remove(ZIP_PATH)` (unguarded)
followed by the final print. -/
def cleanupStep (d : Dir) (ms : List String) : Result :=
  match osRemove d ZIP_PATH with
  | none => ⟨d, ms, some (.fileNotFound ZIP_PATH)⟩
  | some d' => ⟨d', ms ++ [MSG_DONE], none⟩

/-- The full pipeline.  `net` is the response body fetched from the fixed
URL (`none` = transport failure in `urlretrieve`); `d0` is the initial
contents of the assets directory. -/
def run (net : Option FileData) (d0 : Dir) : Result :=
  let ms0 := [MSG_DOWNLOADING]
  match net with
  | none => ⟨d0, ms0, some .urlError⟩
  | some blob =>
    let d1 := writeD d0 ZIP_PATH blob
    let ms1 := ms0 ++ [MSG_COMPLETE, MSG_EXTRACTING]
    match lookupD d1 ZIP_PATH with
    | none => ⟨d1, ms1, some (.fileNotFound ZIP_PATH)⟩
    | some (.raw _) => ⟨d1, ms1, some .badZipFile⟩
    | some (.zipArchive es) =>
      let d2 := extractAll d1 es
      match renameFiles d2 ms1 with
      | (d3, ms3, some e) => ⟨d3, ms3, some e⟩
      | (d3, ms3, none) => cleanupStep d3 ms3

/-! ## Basic facts about the directory operations -/

theorem lookupD_writeD_self (d : Dir) (n : Name) (v : FileData) :
    lookupD (writeD d n v) n = some v := by
  induction d with
  | nil => simp [writeD, lookupD]
  | cons e es ih =>
    obtain ⟨k, w⟩ := e
    by_cases h : k = n
    · simp [writeD, lookupD, h]
    · simp [writeD, lookupD, h, ih]

theorem lookupD_writeD_ne (d : Dir) (n m : Name) (v : FileData) (h : m ≠ n) :
    lookupD (writeD d n v) m = lookupD d m := by
  have hnm : ¬n = m := fun e => h e.symm
  induction d with
  | nil => simp [writeD, lookupD, hnm]
  | cons e es ih =>
    obtain ⟨k, w⟩ := e
    by_cases hk : k = n
    · subst hk
      simp [writeD, lookupD, hnm]
    · by_cases hm : k = m
      · simp [writeD, lookupD, hk, hm, h]
      · simp [writeD, lookupD, hk, hm, ih]

theorem lookupD_removeD_self (d : Dir) (n : Name) :
    lookupD (removeD d n) n = none := by
  induction d with
  | nil => simp [removeD, lookupD]
  | cons e es ih =>
    obtain ⟨k, w⟩ := e
    by_cases h : k = n
    · simp [removeD, h, ih]
    · simp [removeD, lookupD, h, ih]

theorem lookupD_removeD_ne (d : Dir) (n m : Name) (h : m ≠ n) :
    lookupD (removeD d n) m = lookupD d m := by
  have hnm : ¬n = m := fun e => h e.symm
  induction d with
  | nil => simp [removeD]
  | cons e es ih =>
    obtain ⟨k, w⟩ := e
    by_cases hk : k = n
    · subst hk
      simp [removeD, lookupD, hnm, ih]
    · by_cases hm : k = m
      · simp [removeD, lookupD, hk, hm, h]
      · simp [removeD, lookupD, hk, hm, ih]

theorem mem_listdir_iff (d : Dir) (n : Name) :
    n ∈ listdir d ↔ (lookupD d n).isSome := by
  induction d with
  | nil => simp [listdir, lookupD]
  | cons e es ih =>
    obtain ⟨k, w⟩ := e
    by_cases h : k = n
    · subst h
      simp [listdir, lookupD]
    · have hnk : ¬n = k := fun e => h e.symm
      simp only [listdir, List.map_cons, List.mem_cons, lookupD, if_neg h, hnk, false_or]
      exact ih

theorem lookupD_eq_none_of_not_mem (d : Dir) (n : Name)
    (h : n ∉ listdir d) : lookupD d n = none := by
  have := (mem_listdir_iff d n).not.mp h
  cases heq : lookupD d n with
  | none => rfl
  | some v => rw [heq] at this; simp at this

theorem listdir_writeD (d : Dir) (n : Name) (v : FileData) :
    listdir (writeD d n v) =
      if (lookupD d n).isSome then listdir d else listdir d ++ [n] := by
  induction d with
  | nil => simp [writeD, listdir, lookupD]
  | cons e es ih =>
    obtain ⟨k, w⟩ := e
    by_cases h : k = n
    · subst h
      simp [writeD, listdir, lookupD]
    · simp only [writeD, if_neg h, listdir, List.map_cons, lookupD] at ih ⊢
      rw [ih]
      by_cases hm : (lookupD es n).isSome = true
      · rw [if_pos hm, if_pos hm]
      · rw [if_neg hm, if_neg hm, List.cons_append]

theorem listdir_removeD (d : Dir) (n : Name) :
    listdir (removeD d n) = (listdir d).filter (fun k => !decide (k = n)) := by
  induction d with
  | nil => simp [removeD, listdir]
  | cons e es ih =>
    obtain ⟨k, w⟩ := e
    simp only [listdir] at ih
    by_cases h : k = n
    · subst h
      simp [removeD, listdir, ih, List.filter_cons]
    · simp [removeD, listdir, h, ih, List.filter_cons]

theorem nodup_writeD (d : Dir) (n : Name) (v : FileData)
    (h : (listdir d).Nodup) : (listdir (writeD d n v)).Nodup := by
  rw [listdir_writeD]
  by_cases hm : (lookupD d n).isSome
  · rw [if_pos hm]; exact h
  · have hnot : n ∉ listdir d := fun hc => hm ((mem_listdir_iff d n).mp hc)
    rw [if_neg hm]
    simp [List.nodup_append, h, hnot]

theorem nodup_removeD (d : Dir) (n : Name)
    (h : (listdir d).Nodup) : (listdir (removeD d n)).Nodup := by
  rw [listdir_removeD]
  exact h.filter _

theorem nodup_extractAll (d : Dir) (es : List (Name × Nat))
    (h : (listdir d).Nodup) : (listdir (extractAll d es)).Nodup := by
  induction es generalizing d with
  | nil => simpa [extractAll] using h
  | cons e es ih =>
    obtain ⟨n, c⟩ := e
    exact ih _ (nodup_writeD _ _ _ h)

theorem isSome_lookupD_extractAll (d : Dir) (es : List (Name × Nat)) (n : Name)
    (h : (lookupD d n).isSome) : (lookupD (extractAll d es) n).isSome := by
  induction es generalizing d with
  | nil => simpa [extractAll] using h
  | cons e es ih =>
    obtain ⟨m, c⟩ := e
    apply ih
    by_cases hm : n = m
    · subst hm; simp [lookupD_writeD_self]
    · rwa [lookupD_writeD_ne _ _ _ _ hm]

theorem mem_listdir_extractAll (d : Dir) (es : List (Name × Nat)) (n : Name)
    (h : n ∈ listdir (extractAll d es)) :
    n ∈ listdir d ∨ n ∈ es.map Prod.fst := by
  induction es generalizing d with
  | nil => exact Or.inl (by simpa [extractAll] using h)
  | cons e es ih =>
    obtain ⟨m, c⟩ := e
    rcases ih _ h with hd | hs
    · rw [listdir_writeD] at hd
      by_cases hm : (lookupD d m).isSome
      · rw [if_pos hm] at hd
        exact Or.inl hd
      · rw [if_neg hm] at hd
        rcases List.mem_append.mp hd with hd | hd
        · exact Or.inl hd
        · exact Or.inr (by simp [List.mem_singleton.mp hd])
    · exact Or.inr (by simp only [List.map_cons, List.mem_cons]; exact Or.inr hs)

theorem lookupD_extractAll_not_mem (d : Dir) (es : List (Name × Nat)) (n : Name)
    (h : n ∉ es.map Prod.fst) : lookupD (extractAll d es) n = lookupD d n := by
  induction es generalizing d with
  | nil => simp [extractAll]
  | cons e es ih =>
    obtain ⟨m, c⟩ := e
    simp only [List.map_cons, List.mem_cons] at h
    push_neg at h
    rw [extractAll, ih _ h.2, lookupD_writeD_ne _ _ _ _ h.1]

/-! ## Facts about the naming rules and the constant names -/

theorem mm_MODEL : matchesModel MODEL_NAME = true := by decide

theorem ml_MODEL : matchesLabel MODEL_NAME = false := by decide

theorem mm_LABEL : matchesModel LABEL_NAME = false := by decide

theorem ml_LABEL : matchesLabel LABEL_NAME = true := by decide

theorem mm_ZIP : matchesModel ZIP_PATH = false := by decide

theorem ml_ZIP : matchesLabel ZIP_PATH = false := by decide

theorem ne_of_model_tf {a b : Name} (h1 : matchesModel a = true)
    (h2 : matchesModel b = false) : a ≠ b := by
  intro e; subst e; rw [h1] at h2; cases h2

theorem ne_of_label_tf {a b : Name} (h1 : matchesLabel a = true)
    (h2 : matchesLabel b = false) : a ≠ b := by
  intro e; subst e; rw [h1] at h2; cases h2

theorem MODEL_ne_LABEL : MODEL_NAME ≠ LABEL_NAME := by decide

theorem MODEL_ne_ZIP : MODEL_NAME ≠ ZIP_PATH := by decide

theorem LABEL_ne_ZIP : LABEL_NAME ≠ ZIP_PATH := by decide

/-- A nonempty list is a Boolean prefix of `l` only when `l` starts with
its head. -/
theorem head_of_isPrefixOf {a : Char} {xs l : List Char}
    (h : (a :: xs).isPrefixOf l = true) : l.head? = some a := by
  cases l with
  | nil => simp [List.isPrefixOf] at h
  | cons b bs =>
    simp only [List.isPrefixOf, Bool.and_eq_true, beq_iff_eq] at h
    simp [h.1]

/-- No name can satisfy both naming rules: the model rule forces the
suffix `.tflite` while the label rule forces the suffix `.txt`. -/
theorem matches_clash (f : Name) (h1 : matchesModel f = true)
    (h2 : matchesLabel f = true) : False := by
  unfold matchesModel at h1
  unfold matchesLabel at h2
  rw [Bool.and_eq_true] at h2
  have h2' := h2.2
  rw [List.isSuffixOf] at h1 h2'
  have e1 : (".tflite".data).reverse = ['e', 't', 'i', 'l', 'f', 't', '.'] := by decide
  have e2 : (".txt".data).reverse = ['t', 'x', 't', '.'] := by decide
  rw [e1] at h1
  rw [e2] at h2'
  have g1 := head_of_isPrefixOf h1
  have g2 := head_of_isPrefixOf h2'
  rw [g1] at g2
  simp at g2

theorem model_of_label (f : Name) (h : matchesLabel f = true) :
    matchesModel f = false := by
  cases hm : matchesModel f with
  | false => rfl
  | true => exact absurd (matches_clash f hm h) (by simp)

theorem label_of_model (f : Name) (h : matchesModel f = true) :
    matchesLabel f = false := by
  cases hl : matchesLabel f with
  | false => rfl
  | true => exact absurd (matches_clash f h hl) (by simp)

/-! ## Behaviour of one iteration of the rename loop -/

theorem renameStep_model (d : Dir) (ms : List String) (f : Name) (v : FileData)
    (h : matchesModel f = true) (hv : lookupD d f = some v) :
    renameStep d ms f =
      ((writeD (removeD d f) MODEL_NAME v, ms ++ [MSG_MODEL_SAVED]), none) := by
  simp [renameStep, h, moveFile, hv]

theorem renameStep_label (d : Dir) (ms : List String) (f : Name) (v : FileData)
    (h1 : matchesModel f = false) (h2 : matchesLabel f = true)
    (hv : lookupD d f = some v) :
    renameStep d ms f =
      ((writeD (removeD d f) LABEL_NAME v, ms ++ [MSG_LABEL_SAVED]), none) := by
  simp [renameStep, h1, h2, moveFile, hv]

theorem renameStep_skip (d : Dir) (ms : List String) (f : Name)
    (h1 : matchesModel f = false) (h2 : matchesLabel f = false) :
    renameStep d ms f = ((d, ms), none) := by
  simp [renameStep, h1, h2]

/-- A step on `f` never touches a name that matches neither rule. -/
theorem renameStep_preserve_nonmatch (d : Dir) (ms : List String) (f n : Name)
    (h1 : matchesModel n = false) (h2 : matchesLabel n = false) :
    lookupD (renameStep d ms f).1.1 n = lookupD d n := by
  have hnM : n ≠ MODEL_NAME := Ne.symm (ne_of_model_tf mm_MODEL h1)
  have hnL : n ≠ LABEL_NAME := Ne.symm (ne_of_label_tf ml_LABEL h2)
  by_cases hf1 : matchesModel f = true
  · have hnf : n ≠ f := Ne.symm (ne_of_model_tf hf1 h1)
    cases hv : lookupD d f with
    | none => simp [renameStep, hf1, moveFile, hv]
    | some v =>
      rw [renameStep_model d ms f v hf1 hv]
      simp only
      rw [lookupD_writeD_ne _ _ _ _ hnM, lookupD_removeD_ne _ _ _ hnf]
  · rw [Bool.not_eq_true] at hf1
    by_cases hf2 : matchesLabel f = true
    · have hnf : n ≠ f := Ne.symm (ne_of_label_tf hf2 h2)
      cases hv : lookupD d f with
      | none => simp [renameStep, hf1, hf2, moveFile, hv]
      | some v =>
        rw [renameStep_label d ms f v hf1 hf2 hv]
        simp only
        rw [lookupD_writeD_ne _ _ _ _ hnL, lookupD_removeD_ne _ _ _ hnf]
    · rw [Bool.not_eq_true] at hf2
      rw [renameStep_skip d ms f hf1 hf2]

/-- A step on `f` never touches a name other than `f` and the two
canonical names. -/
theorem renameStep_preserve_other (d : Dir) (ms : List String) (f n : Name)
    (hf : f ≠ n) (hM : n ≠ MODEL_NAME) (hL : n ≠ LABEL_NAME) :
    lookupD (renameStep d ms f).1.1 n = lookupD d n := by
  have hnf : n ≠ f := Ne.symm hf
  by_cases hf1 : matchesModel f = true
  · cases hv : lookupD d f with
    | none => simp [renameStep, hf1, moveFile, hv]
    | some v =>
      rw [renameStep_model d ms f v hf1 hv]
      simp only
      rw [lookupD_writeD_ne _ _ _ _ hM, lookupD_removeD_ne _ _ _ hnf]
  · rw [Bool.not_eq_true] at hf1
    by_cases hf2 : matchesLabel f = true
    · cases hv : lookupD d f with
      | none => simp [renameStep, hf1, hf2, moveFile, hv]
      | some v =>
        rw [renameStep_label d ms f v hf1 hf2 hv]
        simp only
        rw [lookupD_writeD_ne _ _ _ _ hL, lookupD_removeD_ne _ _ _ hnf]
    · rw [Bool.not_eq_true] at hf2
      rw [renameStep_skip d ms f hf1 hf2]

/-- A step on a name that does not satisfy the model rule never changes
the canonical model file. -/
theorem renameStep_preserve_MODEL (d : Dir) (ms : List String) (f : Name)
    (hf : matchesModel f = false) :
    lookupD (renameStep d ms f).1.1 MODEL_NAME = lookupD d MODEL_NAME := by
  by_cases hf2 : matchesLabel f = true
  · have hMf : MODEL_NAME ≠ f := Ne.symm (ne_of_label_tf hf2 ml_MODEL)
    cases hv : lookupD d f with
    | none => simp [renameStep, hf, hf2, moveFile, hv]
    | some v =>
      rw [renameStep_label d ms f v hf hf2 hv]
      simp only
      rw [lookupD_writeD_ne _ _ _ _ MODEL_ne_LABEL, lookupD_removeD_ne _ _ _ hMf]
  · rw [Bool.not_eq_true] at hf2
    rw [renameStep_skip d ms f hf hf2]

/-- A step on a name that does not satisfy the label rule never changes
the canonical label file. -/
theorem renameStep_preserve_LABEL (d : Dir) (ms : List String) (f : Name)
    (hf : matchesLabel f = false) :
    lookupD (renameStep d ms f).1.1 LABEL_NAME = lookupD d LABEL_NAME := by
  by_cases hf1 : matchesModel f = true
  · have hLf : LABEL_NAME ≠ f := Ne.symm (ne_of_model_tf hf1 mm_LABEL)
    cases hv : lookupD d f with
    | none => simp [renameStep, hf1, moveFile, hv]
    | some v =>
      rw [renameStep_model d ms f v hf1 hv]
      simp only
      rw [lookupD_writeD_ne _ _ _ _ (Ne.symm MODEL_ne_LABEL), lookupD_removeD_ne _ _ _ hLf]
  · rw [Bool.not_eq_true] at hf1
    rw [renameStep_skip d ms f hf1 hf]

/-! ## Behaviour of the whole rename loop -/

/-- Frame property: the loop leaves every name matching neither rule
untouched, whether or not it aborts. -/
theorem renameGo_preserve_nonmatch (L : List Name) :
    ∀ (d : Dir) (ms : List String) (n : Name),
      matchesModel n = false → matchesLabel n = false →
      lookupD (renameGo d ms L).1 n = lookupD d n := by
  induction L with
  | nil => intro d ms n h1 h2; rfl
  | cons f fs ih =>
    intro d ms n h1 h2
    have hp := renameStep_preserve_nonmatch d ms f n h1 h2
    cases hstep : renameStep d ms f with
    | mk p e =>
      obtain ⟨d', ms'⟩ := p
      rw [hstep] at hp
      cases e with
      | none =>
        simp only [renameGo, hstep]
        rw [ih d' ms' n h1 h2]
        exact hp
      | some e' =>
        simp only [renameGo, hstep]
        exact hp

/-- Frame property: the loop leaves every name outside the processed
snapshot and distinct from both canonical names untouched. -/
theorem renameGo_preserve_outside (L : List Name) :
    ∀ (d : Dir) (ms : List String) (n : Name),
      n ∉ L → n ≠ MODEL_NAME → n ≠ LABEL_NAME →
      lookupD (renameGo d ms L).1 n = lookupD d n := by
  induction L with
  | nil => intro d ms n _ _ _; rfl
  | cons f fs ih =>
    intro d ms n hn hM hL
    have hfn : f ≠ n := fun e => hn (e ▸ List.mem_cons_self f fs)
    have hn' : n ∉ fs := fun hc => hn (List.mem_cons_of_mem f hc)
    have hp := renameStep_preserve_other d ms f n hfn hM hL
    cases hstep : renameStep d ms f with
    | mk p e =>
      obtain ⟨d', ms'⟩ := p
      rw [hstep] at hp
      cases e with
      | none =>
        simp only [renameGo, hstep]
        rw [ih d' ms' n hn' hM hL]
        exact hp
      | some e' =>
        simp only [renameGo, hstep]
        exact hp

/-- When no processed name satisfies the model rule, the canonical model
file is untouched. -/
theorem renameGo_preserve_MODEL (L : List Name) :
    ∀ (d : Dir) (ms : List String),
      (∀ n ∈ L, matchesModel n = false) →
      lookupD (renameGo d ms L).1 MODEL_NAME = lookupD d MODEL_NAME := by
  induction L with
  | nil => intro d ms _; rfl
  | cons f fs ih =>
    intro d ms hall
    have hp := renameStep_preserve_MODEL d ms f (hall f (List.mem_cons_self f fs))
    cases hstep : renameStep d ms f with
    | mk p e =>
      obtain ⟨d', ms'⟩ := p
      rw [hstep] at hp
      cases e with
      | none =>
        simp only [renameGo, hstep]
        rw [ih d' ms' (fun n hn => hall n (List.mem_cons_of_mem f hn))]
        exact hp
      | some e' =>
        simp only [renameGo, hstep]
        exact hp

/-- When no processed name satisfies the label rule, the canonical label
file is untouched. -/
theorem renameGo_preserve_LABEL (L : List Name) :
    ∀ (d : Dir) (ms : List String),
      (∀ n ∈ L, matchesLabel n = false) →
      lookupD (renameGo d ms L).1 LABEL_NAME = lookupD d LABEL_NAME := by
  induction L with
  | nil => intro d ms _; rfl
  | cons f fs ih =>
    intro d ms hall
    have hp := renameStep_preserve_LABEL d ms f (hall f (List.mem_cons_self f fs))
    cases hstep : renameStep d ms f with
    | mk p e =>
      obtain ⟨d', ms'⟩ := p
      rw [hstep] at hp
      cases e with
      | none =>
        simp only [renameGo, hstep]
        rw [ih d' ms' (fun n hn => hall n (List.mem_cons_of_mem f hn))]
        exact hp
      | some e' =>
        simp only [renameGo, hstep]
        exact hp

/-- The loop never aborts when the snapshot has no duplicates and all its
names are present — this is exactly the situation after extraction. -/
theorem renameGo_ok (L : List Name) :
    ∀ (d : Dir) (ms : List String), L.Nodup →
      (∀ n ∈ L, (lookupD d n).isSome) →
      ∃ d' ms', renameGo d ms L = (d', ms', none) := by
  induction L with
  | nil => intro d ms _ _; exact ⟨d, ms, rfl⟩
  | cons f fs ih =>
    intro d ms hnd hpres
    obtain ⟨hfn, hnd'⟩ := List.nodup_cons.mp hnd
    have hf := hpres f (List.mem_cons_self f fs)
    obtain ⟨v, hv⟩ := Option.isSome_iff_exists.mp hf
    by_cases hf1 : matchesModel f = true
    · have hstep := renameStep_model d ms f v hf1 hv
      have hnext : ∀ n ∈ fs, (lookupD (writeD (removeD d f) MODEL_NAME v) n).isSome := by
        intro n hn
        by_cases hM : n = MODEL_NAME
        · subst hM; rw [lookupD_writeD_self]; rfl
        · have hnf : n ≠ f := fun e => hfn (e ▸ hn)
          rw [lookupD_writeD_ne _ _ _ _ hM, lookupD_removeD_ne _ _ _ hnf]
          exact hpres n (List.mem_cons_of_mem f hn)
      obtain ⟨d', ms', heq⟩ := ih _ _ hnd' hnext
      exact ⟨d', ms', by simp only [renameGo, hstep]; exact heq⟩
    · rw [Bool.not_eq_true] at hf1
      by_cases hf2 : matchesLabel f = true
      · have hstep := renameStep_label d ms f v hf1 hf2 hv
        have hnext : ∀ n ∈ fs, (lookupD (writeD (removeD d f) LABEL_NAME v) n).isSome := by
          intro n hn
          by_cases hL : n = LABEL_NAME
          · subst hL; rw [lookupD_writeD_self]; rfl
          · have hnf : n ≠ f := fun e => hfn (e ▸ hn)
            rw [lookupD_writeD_ne _ _ _ _ hL, lookupD_removeD_ne _ _ _ hnf]
            exact hpres n (List.mem_cons_of_mem f hn)
        obtain ⟨d', ms', heq⟩ := ih _ _ hnd' hnext
        exact ⟨d', ms', by simp only [renameGo, hstep]; exact heq⟩
      · rw [Bool.not_eq_true] at hf2
        have hstep := renameStep_skip d ms f hf1 hf2
        have hnext : ∀ n ∈ fs, (lookupD d n).isSome :=
          fun n hn => hpres n (List.mem_cons_of_mem f hn)
        obtain ⟨d', ms', heq⟩ := ih _ _ hnd' hnext
        exact ⟨d', ms', by simp only [renameGo, hstep]; exact heq⟩

/-! ## Last-match semantics of the rename loop -/

/-- The last element of `L` satisfying `p`, if any — the name whose
content survives at a canonical destination after the loop. -/
def lastMatch (p : Name → Bool) : List Name → Option Name
  | [] => none
  | f :: fs =>
    match lastMatch p fs with
    | some n => some n
    | none => if p f then some f else none

theorem lastMatch_mem {p : Name → Bool} {L : List Name} {n : Name}
    (h : lastMatch p L = some n) : n ∈ L ∧ p n = true := by
  induction L with
  | nil => simp [lastMatch] at h
  | cons f fs ih =>
    rw [lastMatch] at h
    revert h
    cases hfs : lastMatch p fs with
    | some m =>
      intro h
      have h' : m = n := Option.some.inj h
      subst h'
      obtain ⟨hm, hp⟩ := ih hfs
      exact ⟨List.mem_cons_of_mem f hm, hp⟩
    | none =>
      intro h
      have h2 : (if p f = true then some f else none) = some n := h
      by_cases hpf : p f = true
      · rw [if_pos hpf] at h2
        have h' : f = n := Option.some.inj h2
        subst h'
        exact ⟨List.mem_cons_self f fs, hpf⟩
      · rw [if_neg hpf] at h2
        exact Option.noConfusion h2

/-- After the loop, each canonical name holds the content that the *last*
matching snapshot name had before the loop (provided the snapshot has no
duplicates, does not already contain the canonical names, and all its
names are present). -/
theorem renameGo_last_match (L : List Name) :
    ∀ (d : Dir) (ms : List String), L.Nodup →
      MODEL_NAME ∉ L → LABEL_NAME ∉ L →
      (∀ n ∈ L, (lookupD d n).isSome) →
      ∃ d' ms', renameGo d ms L = (d', ms', none) ∧
        lookupD d' MODEL_NAME =
          (match lastMatch matchesModel L with
            | some n => lookupD d n
            | none => lookupD d MODEL_NAME) ∧
        lookupD d' LABEL_NAME =
          (match lastMatch matchesLabel L with
            | some n => lookupD d n
            | none => lookupD d LABEL_NAME) := by
  induction L with
  | nil => intro d ms _ _ _ _; exact ⟨d, ms, rfl, rfl, rfl⟩
  | cons f fs ih =>
    intro d ms hnd hM hL hpres
    obtain ⟨hfn, hnd'⟩ := List.nodup_cons.mp hnd
    have hMf : MODEL_NAME ≠ f := fun e => hM (e ▸ List.mem_cons_self f fs)
    have hLf : LABEL_NAME ≠ f := fun e => hL (e ▸ List.mem_cons_self f fs)
    have hM' : MODEL_NAME ∉ fs := fun hc => hM (List.mem_cons_of_mem f hc)
    have hL' : LABEL_NAME ∉ fs := fun hc => hL (List.mem_cons_of_mem f hc)
    have hf := hpres f (List.mem_cons_self f fs)
    obtain ⟨v, hv⟩ := Option.isSome_iff_exists.mp hf
    -- shared facts for a step that moves f to destination c
    by_cases hf1 : matchesModel f = true
    · -- the step moves f to MODEL_NAME
      have hstep := renameStep_model d ms f v hf1 hv
      set d1 := writeD (removeD d f) MODEL_NAME v with hd1
      have hsame : ∀ n ∈ fs, lookupD d1 n = lookupD d n := by
        intro n hn
        have hnf : n ≠ f := fun e => hfn (e ▸ hn)
        have hnM : n ≠ MODEL_NAME := fun e => hM' (e ▸ hn)
        rw [hd1, lookupD_writeD_ne _ _ _ _ hnM, lookupD_removeD_ne _ _ _ hnf]
      have hnext : ∀ n ∈ fs, (lookupD d1 n).isSome := by
        intro n hn
        rw [hsame n hn]
        exact hpres n (List.mem_cons_of_mem f hn)
      obtain ⟨d', ms', heq, hMeq, hLeq⟩ := ih d1 (ms ++ [MSG_MODEL_SAVED]) hnd' hM' hL' hnext
      refine ⟨d', ms', by simp only [renameGo, hstep]; exact heq, ?_, ?_⟩
      · cases hlm : lastMatch matchesModel fs with
        | some n =>
          have hn := lastMatch_mem hlm
          rw [hMeq, hlm]
          simp only [lastMatch, hlm]
          exact hsame n hn.1
        | none =>
          rw [hMeq, hlm]
          simp only [lastMatch, hlm, if_pos hf1]
          rw [hd1, lookupD_writeD_self, hv]
      · have hf2 : matchesLabel f = false := label_of_model f hf1
        cases hll : lastMatch matchesLabel fs with
        | some n =>
          have hn := lastMatch_mem hll
          rw [hLeq, hll]
          simp only [lastMatch, hll]
          exact hsame n hn.1
        | none =>
          rw [hLeq, hll]
          simp only [lastMatch, hll, hf2, Bool.false_eq_true, if_false]
          rw [hd1, lookupD_writeD_ne _ _ _ _ (Ne.symm MODEL_ne_LABEL),
            lookupD_removeD_ne _ _ _ hLf]
    · rw [Bool.not_eq_true] at hf1
      by_cases hf2 : matchesLabel f = true
      · -- the step moves f to LABEL_NAME
        have hstep := renameStep_label d ms f v hf1 hf2 hv
        set d1 := writeD (removeD d f) LABEL_NAME v with hd1
        have hsame : ∀ n ∈ fs, lookupD d1 n = lookupD d n := by
          intro n hn
          have hnf : n ≠ f := fun e => hfn (e ▸ hn)
          have hnL : n ≠ LABEL_NAME := fun e => hL' (e ▸ hn)
          rw [hd1, lookupD_writeD_ne _ _ _ _ hnL, lookupD_removeD_ne _ _ _ hnf]
        have hnext : ∀ n ∈ fs, (lookupD d1 n).isSome := by
          intro n hn
          rw [hsame n hn]
          exact hpres n (List.mem_cons_of_mem f hn)
        obtain ⟨d', ms', heq, hMeq, hLeq⟩ := ih d1 (ms ++ [MSG_LABEL_SAVED]) hnd' hM' hL' hnext
        refine ⟨d', ms', by simp only [renameGo, hstep]; exact heq, ?_, ?_⟩
        · cases hlm : lastMatch matchesModel fs with
          | some n =>
            have hn := lastMatch_mem hlm
            rw [hMeq, hlm]
            simp only [lastMatch, hlm]
            exact hsame n hn.1
          | none =>
            rw [hMeq, hlm]
            simp only [lastMatch, hlm, hf1, Bool.false_eq_true, if_false]
            rw [hd1, lookupD_writeD_ne _ _ _ _ MODEL_ne_LABEL,
              lookupD_removeD_ne _ _ _ hMf]
        · cases hll : lastMatch matchesLabel fs with
          | some n =>
            have hn := lastMatch_mem hll
            rw [hLeq, hll]
            simp only [lastMatch, hll]
            exact hsame n hn.1
          | none =>
            rw [hLeq, hll]
            simp only [lastMatch, hll, if_pos hf2]
            rw [hd1, lookupD_writeD_self, hv]
      · rw [Bool.not_eq_true] at hf2
        have hstep := renameStep_skip d ms f hf1 hf2
        have hnext : ∀ n ∈ fs, (lookupD d n).isSome :=
          fun n hn => hpres n (List.mem_cons_of_mem f hn)
        obtain ⟨d', ms', heq, hMeq, hLeq⟩ := ih d ms hnd' hM' hL' hnext
        refine ⟨d', ms', by simp only [renameGo, hstep]; exact heq, ?_, ?_⟩
        · cases hlm : lastMatch matchesModel fs with
          | some n =>
            rw [hMeq, hlm]
            simp only [lastMatch, hlm]
          | none =>
            rw [hMeq, hlm]
            simp only [lastMatch, hlm, hf1, Bool.false_eq_true, if_false]
        · cases hll : lastMatch matchesLabel fs with
          | some n =>
            rw [hLeq, hll]
            simp only [lastMatch, hll]
          | none =>
            rw [hLeq, hll]
            simp only [lastMatch, hll, hf2, Bool.false_eq_true, if_false]

/-- Uniform-content run of the loop: when every model-matching snapshot
name holds content `raw cm` and every label-matching one holds `raw cl`
(the situation when the same archive is extracted over any previous run),
the loop succeeds, lands `raw cm` at the canonical model name whenever a
model match exists (similarly for labels), and removes the non-canonical
matching sources. -/
theorem renameGo_uniform (cm cl : Nat) (L : List Name) :
    ∀ (d : Dir) (ms : List String), L.Nodup →
      (∀ n ∈ L, ∃ v, lookupD d n = some v ∧
        (matchesModel n = true → v = FileData.raw cm) ∧
        (matchesLabel n = true → v = FileData.raw cl)) →
      ∃ d' ms', renameGo d ms L = (d', ms', none) ∧
        ((∃ n ∈ L, matchesModel n = true) →
          lookupD d' MODEL_NAME = some (FileData.raw cm)) ∧
        ((∃ n ∈ L, matchesLabel n = true) →
          lookupD d' LABEL_NAME = some (FileData.raw cl)) ∧
        (∀ n ∈ L, matchesModel n = true → n ≠ MODEL_NAME → lookupD d' n = none) ∧
        (∀ n ∈ L, matchesLabel n = true → n ≠ LABEL_NAME → lookupD d' n = none) := by
  induction L with
  | nil =>
    intro d ms _ _
    refine ⟨d, ms, rfl, ?_, ?_, ?_, ?_⟩ <;> simp
  | cons f fs ih =>
    intro d ms hnd hpres
    obtain ⟨hfn, hnd'⟩ := List.nodup_cons.mp hnd
    obtain ⟨v, hv, hvm, hvl⟩ := hpres f (List.mem_cons_self f fs)
    by_cases hf1 : matchesModel f = true
    · -- f is moved to MODEL_NAME carrying raw cm
      have hfL : f ≠ LABEL_NAME := ne_of_model_tf hf1 mm_LABEL
      have hveq : v = FileData.raw cm := hvm hf1
      subst hveq
      have hstep := renameStep_model d ms f _ hf1 hv
      set d1 := writeD (removeD d f) MODEL_NAME (FileData.raw cm) with hd1
      have hsame : ∀ n, n ≠ f → n ≠ MODEL_NAME → lookupD d1 n = lookupD d n := by
        intro n hnf hnM
        rw [hd1, lookupD_writeD_ne _ _ _ _ hnM, lookupD_removeD_ne _ _ _ hnf]
      have hnext : ∀ n ∈ fs, ∃ w, lookupD d1 n = some w ∧
          (matchesModel n = true → w = FileData.raw cm) ∧
          (matchesLabel n = true → w = FileData.raw cl) := by
        intro n hn
        by_cases hnM : n = MODEL_NAME
        · subst hnM
          refine ⟨FileData.raw cm, by rw [hd1, lookupD_writeD_self], fun _ => rfl, ?_⟩
          intro hc
          rw [ml_MODEL] at hc
          cases hc
        · have hnf : n ≠ f := fun e => hfn (e ▸ hn)
          obtain ⟨w, hw, hwm, hwl⟩ := hpres n (List.mem_cons_of_mem f hn)
          exact ⟨w, by rw [hsame n hnf hnM]; exact hw, hwm, hwl⟩
      obtain ⟨d', ms', heq, hMc, hLc, hremM, hremL⟩ :=
        ih d1 (ms ++ [MSG_MODEL_SAVED]) hnd' hnext
      refine ⟨d', ms', by simp only [renameGo, hstep]; exact heq, ?_, ?_, ?_, ?_⟩
      · intro _
        by_cases hex : ∃ n ∈ fs, matchesModel n = true
        · exact hMc hex
        · push_neg at hex
          have hall : ∀ n ∈ fs, matchesModel n = false := fun n hn =>
            Bool.eq_false_iff.mpr (hex n hn)
          have hpre := renameGo_preserve_MODEL fs d1 (ms ++ [MSG_MODEL_SAVED]) hall
          rw [heq] at hpre
          rw [hpre, hd1, lookupD_writeD_self]
      · rintro ⟨n, hn, hlab⟩
        rcases List.mem_cons.mp hn with he | hn'
        · subst he
          exact absurd (matches_clash n hf1 hlab) (fun x => x)
        · exact hLc ⟨n, hn', hlab⟩
      · intro n hn hmod hnM
        rcases List.mem_cons.mp hn with he | hn'
        · subst he
          have hgone : lookupD d1 n = none := by
            rw [hd1, lookupD_writeD_ne _ _ _ _ hnM, lookupD_removeD_self]
          have hout := renameGo_preserve_outside fs d1 (ms ++ [MSG_MODEL_SAVED]) n hfn hnM hfL
          rw [heq] at hout
          rw [hout, hgone]
        · exact hremM n hn' hmod hnM
      · intro n hn hlab hnL
        rcases List.mem_cons.mp hn with he | hn'
        · subst he
          exact absurd (matches_clash n hf1 hlab) (fun x => x)
        · exact hremL n hn' hlab hnL
    · rw [Bool.not_eq_true] at hf1
      by_cases hf2 : matchesLabel f = true
      · -- f is moved to LABEL_NAME carrying raw cl
        have hfM : f ≠ MODEL_NAME := ne_of_label_tf hf2 ml_MODEL
        have hveq : v = FileData.raw cl := hvl hf2
        subst hveq
        have hstep := renameStep_label d ms f _ hf1 hf2 hv
        set d1 := writeD (removeD d f) LABEL_NAME (FileData.raw cl) with hd1
        have hsame : ∀ n, n ≠ f → n ≠ LABEL_NAME → lookupD d1 n = lookupD d n := by
          intro n hnf hnL
          rw [hd1, lookupD_writeD_ne _ _ _ _ hnL, lookupD_removeD_ne _ _ _ hnf]
        have hnext : ∀ n ∈ fs, ∃ w, lookupD d1 n = some w ∧
            (matchesModel n = true → w = FileData.raw cm) ∧
            (matchesLabel n = true → w = FileData.raw cl) := by
          intro n hn
          by_cases hnL : n = LABEL_NAME
          · subst hnL
            refine ⟨FileData.raw cl, by rw [hd1, lookupD_writeD_self], ?_, fun _ => rfl⟩
            intro hc
            rw [mm_LABEL] at hc
            cases hc
          · have hnf : n ≠ f := fun e => hfn (e ▸ hn)
            obtain ⟨w, hw, hwm, hwl⟩ := hpres n (List.mem_cons_of_mem f hn)
            exact ⟨w, by rw [hsame n hnf hnL]; exact hw, hwm, hwl⟩
        obtain ⟨d', ms', heq, hMc, hLc, hremM, hremL⟩ :=
          ih d1 (ms ++ [MSG_LABEL_SAVED]) hnd' hnext
        refine ⟨d', ms', by simp only [renameGo, hstep]; exact heq, ?_, ?_, ?_, ?_⟩
        · rintro ⟨n, hn, hmod⟩
          rcases List.mem_cons.mp hn with he | hn'
          · subst he
            exact absurd (matches_clash n hmod hf2) (fun x => x)
          · exact hMc ⟨n, hn', hmod⟩
        · intro _
          by_cases hex : ∃ n ∈ fs, matchesLabel n = true
          · exact hLc hex
          · push_neg at hex
            have hall : ∀ n ∈ fs, matchesLabel n = false := fun n hn =>
              Bool.eq_false_iff.mpr (hex n hn)
            have hpre := renameGo_preserve_LABEL fs d1 (ms ++ [MSG_LABEL_SAVED]) hall
            rw [heq] at hpre
            rw [hpre, hd1, lookupD_writeD_self]
        · intro n hn hmod hnM
          rcases List.mem_cons.mp hn with he | hn'
          · subst he
            exact absurd (matches_clash n hmod hf2) (fun x => x)
          · exact hremM n hn' hmod hnM
        · intro n hn hlab hnL
          rcases List.mem_cons.mp hn with he | hn'
          · subst he
            have hgone : lookupD d1 n = none := by
              rw [hd1, lookupD_writeD_ne _ _ _ _ hnL, lookupD_removeD_self]
            have hout := renameGo_preserve_outside fs d1 (ms ++ [MSG_LABEL_SAVED]) n hfn hfM hnL
            rw [heq] at hout
            rw [hout, hgone]
          · exact hremL n hn' hlab hnL
      · rw [Bool.not_eq_true] at hf2
        have hstep := renameStep_skip d ms f hf1 hf2
        have hnext : ∀ n ∈ fs, ∃ w, lookupD d n = some w ∧
            (matchesModel n = true → w = FileData.raw cm) ∧
            (matchesLabel n = true → w = FileData.raw cl) :=
          fun n hn => hpres n (List.mem_cons_of_mem f hn)
        obtain ⟨d', ms', heq, hMc, hLc, hremM, hremL⟩ := ih d ms hnd' hnext
        refine ⟨d', ms', by simp only [renameGo, hstep]; exact heq, ?_, ?_, ?_, ?_⟩
        · rintro ⟨n, hn, hmod⟩
          rcases List.mem_cons.mp hn with he | hn'
          · subst he
            rw [hf1] at hmod
            cases hmod
          · exact hMc ⟨n, hn', hmod⟩
        · rintro ⟨n, hn, hlab⟩
          rcases List.mem_cons.mp hn with he | hn'
          · subst he
            rw [hf2] at hlab
            cases hlab
          · exact hLc ⟨n, hn', hlab⟩
        · intro n hn hmod hnM
          rcases List.mem_cons.mp hn with he | hn'
          · subst he
            rw [hf1] at hmod
            cases hmod
          · exact hremM n hn' hmod hnM
        · intro n hn hlab hnL
          rcases List.mem_cons.mp hn with he | hn'
          · subst he
            rw [hf2] at hlab
            cases hlab
          · exact hremL n hn' hlab hnL

/-! ## Duplicate-freedom is preserved by every operation -/

theorem nodup_moveFile {d d' : Dir} {src dst : Name}
    (h : moveFile d src dst = some d') (hnd : (listdir d).Nodup) :
    (listdir d').Nodup := by
  unfold moveFile at h
  cases hv : lookupD d src with
  | none => rw [hv] at h; exact Option.noConfusion h
  | some v =>
    rw [hv] at h
    have h' : writeD (removeD d src) dst v = d' := Option.some.inj h
    rw [← h']
    exact nodup_writeD _ _ _ (nodup_removeD _ _ hnd)

theorem nodup_renameStep (d : Dir) (ms : List String) (f : Name)
    (hnd : (listdir d).Nodup) : (listdir (renameStep d ms f).1.1).Nodup := by
  unfold renameStep
  by_cases hf1 : matchesModel f = true
  · rw [if_pos hf1]
    cases hmv : moveFile d f MODEL_NAME with
    | none => exact hnd
    | some d' => exact nodup_moveFile hmv hnd
  · rw [if_neg hf1]
    by_cases hf2 : matchesLabel f = true
    · rw [if_pos hf2]
      cases hmv : moveFile d f LABEL_NAME with
      | none => exact hnd
      | some d' => exact nodup_moveFile hmv hnd
    · rw [if_neg hf2]
      exact hnd

theorem nodup_renameGo (L : List Name) :
    ∀ (d : Dir) (ms : List String), (listdir d).Nodup →
      (listdir (renameGo d ms L).1).Nodup := by
  induction L with
  | nil => intro d ms hnd; exact hnd
  | cons f fs ih =>
    intro d ms hnd
    have hstep := nodup_renameStep d ms f hnd
    cases heq : renameStep d ms f with
    | mk p e =>
      obtain ⟨d', ms'⟩ := p
      rw [heq] at hstep
      cases e with
      | none =>
        simp only [renameGo, heq]
        exact ih d' ms' hstep
      | some e' =>
        simp only [renameGo, heq]
        exact hstep

/-! ## Unfolding the pipeline by the shape of the downloaded blob -/

theorem run_none_eq (d0 : Dir) :
    run none d0 = ⟨d0, [MSG_DOWNLOADING], some .urlError⟩ := rfl

theorem run_raw_eq (d0 : Dir) (b : Nat) :
    run (some (FileData.raw b)) d0 =
      ⟨writeD d0 ZIP_PATH (FileData.raw b),
        [MSG_DOWNLOADING, MSG_COMPLETE, MSG_EXTRACTING], some .badZipFile⟩ := by
  simp only [run]
  rw [lookupD_writeD_self]
  rfl

theorem run_zip_eq (d0 : Dir) (es : List (Name × Nat)) :
    run (some (FileData.zipArchive es)) d0 =
      (match renameFiles (extractAll (writeD d0 ZIP_PATH (FileData.zipArchive es)) es)
          [MSG_DOWNLOADING, MSG_COMPLETE, MSG_EXTRACTING] with
        | (d3, ms3, some e) => ⟨d3, ms3, some e⟩
        | (d3, ms3, none) => cleanupStep d3 ms3) := by
  simp only [run]
  rw [lookupD_writeD_self]
  rfl

/-! ## The pipeline on a two-entry archive (one model entry, one label
entry, in either order), over any compatible starting directory -/

theorem run_twoEntry (nm nl : Name) (cm cl : Nat) (es : List (Name × Nat)) (d0 : Dir)
    (hm : matchesModel nm = true) (hl : matchesLabel nl = true)
    (hes : es = [(nm, cm), (nl, cl)] ∨ es = [(nl, cl), (nm, cm)])
    (hnd : (listdir d0).Nodup)
    (hcompat : ∀ n ∈ listdir d0,
      (matchesModel n = true → lookupD d0 n = some (FileData.raw cm)) ∧
      (matchesLabel n = true → lookupD d0 n = some (FileData.raw cl))) :
    (run (some (FileData.zipArchive es)) d0).err = none ∧
    (listdir (run (some (FileData.zipArchive es)) d0).dir).Nodup ∧
    lookupD (run (some (FileData.zipArchive es)) d0).dir MODEL_NAME =
      some (FileData.raw cm) ∧
    lookupD (run (some (FileData.zipArchive es)) d0).dir LABEL_NAME =
      some (FileData.raw cl) ∧
    (∀ n, n ≠ MODEL_NAME → n ≠ LABEL_NAME →
      lookupD (run (some (FileData.zipArchive es)) d0).dir n =
        if matchesModel n = true ∨ matchesLabel n = true ∨ n = ZIP_PATH then none
        else lookupD d0 n) := by
  have hml : matchesLabel nm = false := label_of_model nm hm
  have hlm : matchesModel nl = false := model_of_label nl hl
  have hnmnl : nm ≠ nl := ne_of_model_tf hm hlm
  have hnmZ : nm ≠ ZIP_PATH := ne_of_model_tf hm mm_ZIP
  have hnlZ : nl ≠ ZIP_PATH := ne_of_label_tf hl ml_ZIP
  have hnmL : nm ≠ LABEL_NAME := ne_of_model_tf hm mm_LABEL
  have hnlM : nl ≠ MODEL_NAME := ne_of_label_tf hl ml_MODEL
  set d1 : Dir := writeD d0 ZIP_PATH (FileData.zipArchive es) with hd1
  set d2 : Dir := extractAll d1 es with hd2
  have hlookZ1 : lookupD d1 ZIP_PATH = some (FileData.zipArchive es) := by
    rw [hd1]; exact lookupD_writeD_self d0 ZIP_PATH _
  have hchar : ∀ n, lookupD d2 n =
      if n = nl then some (FileData.raw cl)
      else if n = nm then some (FileData.raw cm)
      else if n = ZIP_PATH then some (FileData.zipArchive es)
      else lookupD d0 n := by
    intro n
    by_cases h1 : n = nl
    · subst h1
      rw [if_pos rfl]
      rcases hes with he | he <;> rw [hd2, he] <;> simp only [extractAll]
      · exact lookupD_writeD_self _ _ _
      · rw [lookupD_writeD_ne _ _ _ _ (Ne.symm hnmnl)]
        exact lookupD_writeD_self _ _ _
    · rw [if_neg h1]
      by_cases h2 : n = nm
      · subst h2
        rw [if_pos rfl]
        rcases hes with he | he <;> rw [hd2, he] <;> simp only [extractAll]
        · rw [lookupD_writeD_ne _ _ _ _ hnmnl]
          exact lookupD_writeD_self _ _ _
        · exact lookupD_writeD_self _ _ _
      · rw [if_neg h2]
        have hbase : lookupD d2 n = lookupD d1 n := by
          rcases hes with he | he <;> rw [hd2, he] <;> simp only [extractAll]
          · rw [lookupD_writeD_ne _ _ _ _ h1, lookupD_writeD_ne _ _ _ _ h2]
          · rw [lookupD_writeD_ne _ _ _ _ h2, lookupD_writeD_ne _ _ _ _ h1]
        by_cases h3 : n = ZIP_PATH
        · subst h3
          rw [if_pos rfl, hbase, hlookZ1]
        · rw [if_neg h3, hbase, hd1, lookupD_writeD_ne _ _ _ _ h3]
  have hndd2 : (listdir d2).Nodup := by
    rw [hd2]
    exact nodup_extractAll _ _ (by rw [hd1]; exact nodup_writeD _ _ _ hnd)
  have hpresL : ∀ n ∈ listdir d2, ∃ v, lookupD d2 n = some v ∧
      (matchesModel n = true → v = FileData.raw cm) ∧
      (matchesLabel n = true → v = FileData.raw cl) := by
    intro n hn
    by_cases h1 : n = nl
    · subst h1
      refine ⟨FileData.raw cl, by rw [hchar, if_pos rfl], ?_, fun _ => rfl⟩
      intro hc; rw [hlm] at hc; cases hc
    · by_cases h2 : n = nm
      · subst h2
        refine ⟨FileData.raw cm, by rw [hchar, if_neg h1, if_pos rfl], fun _ => rfl, ?_⟩
        intro hc; rw [hml] at hc; cases hc
      · by_cases h3 : n = ZIP_PATH
        · subst h3
          refine ⟨FileData.zipArchive es,
            by rw [hchar, if_neg h1, if_neg h2, if_pos rfl], ?_, ?_⟩
          · intro hc; rw [mm_ZIP] at hc; cases hc
          · intro hc; rw [ml_ZIP] at hc; cases hc
        · have hsome := (mem_listdir_iff d2 n).mp hn
          have hn0 : lookupD d2 n = lookupD d0 n := by
            rw [hchar, if_neg h1, if_neg h2, if_neg h3]
          rw [hn0] at hsome
          obtain ⟨v, hv⟩ := Option.isSome_iff_exists.mp hsome
          have hmem0 : n ∈ listdir d0 := (mem_listdir_iff d0 n).mpr (by rw [hv]; rfl)
          obtain ⟨hc1, hc2⟩ := hcompat n hmem0
          refine ⟨v, by rw [hn0]; exact hv, ?_, ?_⟩
          · intro hmod
            have := hc1 hmod
            rw [hv] at this
            exact Option.some.inj this
          · intro hlab
            have := hc2 hlab
            rw [hv] at this
            exact Option.some.inj this
  have hmemnm : nm ∈ listdir d2 := by
    apply (mem_listdir_iff d2 nm).mpr
    rw [hchar, if_neg hnmnl, if_pos rfl]
    rfl
  have hmemnl : nl ∈ listdir d2 := by
    apply (mem_listdir_iff d2 nl).mpr
    rw [hchar, if_pos rfl]
    rfl
  obtain ⟨d3, ms3, hgo, hMc, hLc, hremM, hremL⟩ :=
    renameGo_uniform cm cl (listdir d2) d2
      [MSG_DOWNLOADING, MSG_COMPLETE, MSG_EXTRACTING] hndd2 hpresL
  have hZ2 : lookupD d2 ZIP_PATH = some (FileData.zipArchive es) := by
    rw [hchar, if_neg (Ne.symm hnlZ), if_neg (Ne.symm hnmZ), if_pos rfl]
  have hZ3 : lookupD d3 ZIP_PATH = some (FileData.zipArchive es) := by
    have hp := renameGo_preserve_nonmatch (listdir d2) d2
      [MSG_DOWNLOADING, MSG_COMPLETE, MSG_EXTRACTING] ZIP_PATH mm_ZIP ml_ZIP
    rw [hgo] at hp
    exact hp.trans hZ2
  have hnd3 : (listdir d3).Nodup := by
    have hp := nodup_renameGo (listdir d2) d2
      [MSG_DOWNLOADING, MSG_COMPLETE, MSG_EXTRACTING] hndd2
    rw [hgo] at hp
    exact hp
  have hfin : run (some (FileData.zipArchive es)) d0 =
      ⟨removeD d3 ZIP_PATH, ms3 ++ [MSG_DONE], none⟩ := by
    rw [run_zip_eq, ← hd1, ← hd2]
    simp only [renameFiles]
    rw [hgo]
    simp only [cleanupStep, osRemove]
    rw [hZ3]
  rw [hfin]
  refine ⟨rfl, nodup_removeD _ _ hnd3, ?_, ?_, ?_⟩
  · rw [lookupD_removeD_ne _ _ _ MODEL_ne_ZIP]
    exact hMc ⟨nm, hmemnm, hm⟩
  · rw [lookupD_removeD_ne _ _ _ LABEL_ne_ZIP]
    exact hLc ⟨nl, hmemnl, hl⟩
  · intro n hM hL
    by_cases hZ : n = ZIP_PATH
    · subst hZ
      rw [lookupD_removeD_self, if_pos (Or.inr (Or.inr rfl))]
    · rw [lookupD_removeD_ne _ _ _ hZ]
      by_cases hm1 : matchesModel n = true
      · rw [if_pos (Or.inl hm1)]
        by_cases hn2 : n ∈ listdir d2
        · exact hremM n hn2 hm1 hM
        · have hp := renameGo_preserve_outside (listdir d2) d2
            [MSG_DOWNLOADING, MSG_COMPLETE, MSG_EXTRACTING] n hn2 hM hL
          rw [hgo] at hp
          rw [hp]
          exact lookupD_eq_none_of_not_mem d2 n hn2
      · by_cases hl1 : matchesLabel n = true
        · rw [if_pos (Or.inr (Or.inl hl1))]
          by_cases hn2 : n ∈ listdir d2
          · exact hremL n hn2 hl1 hL
          · have hp := renameGo_preserve_outside (listdir d2) d2
              [MSG_DOWNLOADING, MSG_COMPLETE, MSG_EXTRACTING] n hn2 hM hL
            rw [hgo] at hp
            rw [hp]
            exact lookupD_eq_none_of_not_mem d2 n hn2
        · have hm1' : matchesModel n = false := Bool.eq_false_iff.mpr hm1
          have hl1' : matchesLabel n = false := Bool.eq_false_iff.mpr hl1
          rw [if_neg (by
            rintro (hc | hc | hc)
            · exact hm1 hc
            · exact hl1 hc
            · exact hZ hc)]
          have hp := renameGo_preserve_nonmatch (listdir d2) d2
            [MSG_DOWNLOADING, MSG_COMPLETE, MSG_EXTRACTING] n hm1' hl1'
          rw [hgo] at hp
          rw [hp, hchar, if_neg (Ne.symm (ne_of_label_tf hl hl1')),
            if_neg (Ne.symm (ne_of_model_tf hm hm1')), if_neg hZ]

theorem getLast?_append_singleton {α : Type} (l : List α) (a : α) :
    (l ++ [a]).getLast? = some a := by
  induction l with
  | nil => rfl
  | cons b bs ih =>
    cases bs with
    | nil => rfl
    | cons c cs =>
      rw [List.cons_append, List.cons_append, List.getLast?_cons_cons]
      exact ih

/-- Shape of any run on a valid archive over a duplicate-free directory:
the loop succeeds and the result is the loop's directory minus the
archive, with the final message appended. -/
theorem run_zip_shape (d0 : Dir) (es : List (Name × Nat)) (hnd : (listdir d0).Nodup) :
    ∃ d3 ms3,
      renameGo (extractAll (writeD d0 ZIP_PATH (FileData.zipArchive es)) es)
        [MSG_DOWNLOADING, MSG_COMPLETE, MSG_EXTRACTING]
        (listdir (extractAll (writeD d0 ZIP_PATH (FileData.zipArchive es)) es)) =
        (d3, ms3, none) ∧
      run (some (FileData.zipArchive es)) d0 =
        ⟨removeD d3 ZIP_PATH, ms3 ++ [MSG_DONE], none⟩ := by
  set d1 : Dir := writeD d0 ZIP_PATH (FileData.zipArchive es) with hd1
  set d2 : Dir := extractAll d1 es with hd2
  have hndd2 : (listdir d2).Nodup := by
    rw [hd2]
    exact nodup_extractAll _ _ (by rw [hd1]; exact nodup_writeD _ _ _ hnd)
  have hpres : ∀ n ∈ listdir d2, (lookupD d2 n).isSome :=
    fun n hn => (mem_listdir_iff d2 n).mp hn
  obtain ⟨d3, ms3, hgo⟩ := renameGo_ok (listdir d2) d2
    [MSG_DOWNLOADING, MSG_COMPLETE, MSG_EXTRACTING] hndd2 hpres
  have hZ2 : (lookupD d2 ZIP_PATH).isSome := by
    rw [hd2]
    exact isSome_lookupD_extractAll _ _ _ (by rw [hd1, lookupD_writeD_self]; rfl)
  have hZ3 : (lookupD d3 ZIP_PATH).isSome := by
    have hp := renameGo_preserve_nonmatch (listdir d2) d2
      [MSG_DOWNLOADING, MSG_COMPLETE, MSG_EXTRACTING] ZIP_PATH mm_ZIP ml_ZIP
    rw [hgo] at hp
    rw [show lookupD d3 ZIP_PATH = lookupD d2 ZIP_PATH from hp]
    exact hZ2
  obtain ⟨w, hw⟩ := Option.isSome_iff_exists.mp hZ3
  refine ⟨d3, ms3, hgo, ?_⟩
  rw [run_zip_eq, ← hd1, ← hd2]
  simp only [renameFiles]
  rw [hgo]
  simp only [cleanupStep, osRemove]
  rw [hw]

/-- A valid archive always carries the pipeline to the success exit with
the final completion message. -/
theorem run_zip_ok (d0 : Dir) (es : List (Name × Nat)) (hnd : (listdir d0).Nodup) :
    (run (some (FileData.zipArchive es)) d0).err = none ∧
    (run (some (FileData.zipArchive es)) d0).msgs.getLast? = some MSG_DONE := by
  obtain ⟨d3, ms3, hgo, hfin⟩ := run_zip_shape d0 es hnd
  rw [hfin]
  exact ⟨rfl, getLast?_append_singleton ms3 MSG_DONE⟩

/-! ## Extraction-path model (for the path-traversal question)

Modelled from CPython `zipfile.ZipFile._extract_member`, the routine
`extractall` delegates to (POSIX separators): the entry name is split at
`/`, drive/UNC prefixes are dropped (on POSIX, absolute names simply embed
empty leading components), every component that is empty, `.` or `..` is
dropped, and the remainder is joined under the target directory. -/

/-- `str.split("/")` on character lists (worker carrying the current
component reversed). -/
def splitSlashGo (cur : List Char) : List Char → List (List Char)
  | [] => [cur.reverse]
  | c :: rest =>
    if c = '/' then cur.reverse :: splitSlashGo [] rest
    else splitSlashGo (c :: cur) rest

/-- Split a character list at `/` separators. -/
def splitSlash (s : List Char) : List (List Char) := splitSlashGo [] s

/-- The component filter of `_extract_member`: drop empty, `.` and `..`
path parts of the entry name before joining under the target directory. -/
def sanitizeParts (name : List Char) : List (List Char) :=
  (splitSlash name).filter (fun p => decide (p ≠ [] ∧ p ≠ ['.'] ∧ p ≠ ['.', '.']))

/-- Depth-tracking resolution of a relative path against its base
directory: `true` when following the components would step above the base
(path traversal). -/
def escapes : List (List Char) → Nat → Bool
  | [], _ => false
  | p :: ps, depth =>
    if p = ['.', '.'] then
      if depth = 0 then true else escapes ps (depth - 1)
    else if p = ['.'] ∨ p = [] then escapes ps depth
    else escapes ps (depth + 1)

/-- Whether a component list resolves to a location outside the directory
it is joined to. -/
def escapesTarget (parts : List (List Char)) : Bool := escapes parts 0

theorem escapes_eq_false_of_no_ascent (ps : List (List Char))
    (h : ∀ p ∈ ps, p ≠ ['.', '.']) : ∀ k, escapes ps k = false := by
  induction ps with
  | nil => intro k; rfl
  | cons p ps ih =>
    intro k
    have hp := h p (List.mem_cons_self p ps)
    have ht : ∀ q ∈ ps, q ≠ ['.', '.'] := fun q hq => h q (List.mem_cons_of_mem p hq)
    rw [escapes, if_neg hp]
    by_cases hd : p = ['.'] ∨ p = []
    · rw [if_pos hd]
      exact ih ht k
    · rw [if_neg hd]
      exact ih ht (k + 1)

theorem sanitizeParts_no_ascent (name : List Char) :
    ∀ p ∈ sanitizeParts name, p ≠ ['.', '.'] := by
  intro p hp
  have := List.of_mem_filter hp
  exact (of_decide_eq_true this).2.2

/-! ## The claims -/

/-- **C1.** For a valid archive whose entries are exactly one model-rule
match (`*.tflite`) and one label-rule match (`label` substring with `.txt`
suffix), in either enumeration order, running the full pipeline on an
initially empty assets directory succeeds and leaves the directory holding
exactly `ssd_mobilenet_v1.tflite` and `labelmap.txt` with the two entries'
contents; in particular `model.zip` is absent. -/
theorem claim_C1_success_layout (nm nl : Name) (cm cl : Nat) (es : List (Name × Nat))
    (hm : matchesModel nm = true) (hl : matchesLabel nl = true)
    (hes : es = [(nm, cm), (nl, cl)] ∨ es = [(nl, cl), (nm, cm)]) :
    (run (some (FileData.zipArchive es)) []).err = none ∧
    lookupD (run (some (FileData.zipArchive es)) []).dir MODEL_NAME =
      some (FileData.raw cm) ∧
    lookupD (run (some (FileData.zipArchive es)) []).dir LABEL_NAME =
      some (FileData.raw cl) ∧
    ∀ n, n ≠ MODEL_NAME → n ≠ LABEL_NAME →
      lookupD (run (some (FileData.zipArchive es)) []).dir n = none := by
  obtain ⟨he, hn, hM, hL, ho⟩ := run_twoEntry nm nl cm cl es [] hm hl hes
    (by simp [listdir]) (by simp [listdir])
  refine ⟨he, hM, hL, ?_⟩
  intro n hMn hLn
  rw [ho n hMn hLn]
  by_cases hc : matchesModel n = true ∨ matchesLabel n = true ∨ n = ZIP_PATH
  · rw [if_pos hc]
  · rw [if_neg hc]
    rfl

/-- Witness for C1 at the spec's own scenario: archive entries
`detect.tflite` and `labelmap.txt`. -/
theorem claim_C1_witness :
    matchesModel "detect.tflite" = true ∧ matchesLabel "labelmap.txt" = true ∧
    (run (some (FileData.zipArchive [("detect.tflite", 1), ("labelmap.txt", 2)])) []).err =
      none ∧
    lookupD (run (some (FileData.zipArchive
      [("detect.tflite", 1), ("labelmap.txt", 2)])) []).dir MODEL_NAME =
      some (FileData.raw 1) ∧
    lookupD (run (some (FileData.zipArchive
      [("detect.tflite", 1), ("labelmap.txt", 2)])) []).dir LABEL_NAME =
      some (FileData.raw 2) ∧
    lookupD (run (some (FileData.zipArchive
      [("detect.tflite", 1), ("labelmap.txt", 2)])) []).dir ZIP_PATH = none := by
  obtain ⟨he, hM, hL, ho⟩ := claim_C1_success_layout "detect.tflite" "labelmap.txt" 1 2
    [("detect.tflite", 1), ("labelmap.txt", 2)] (by decide) (by decide) (Or.inl rfl)
  exact ⟨by decide, by decide, he, hM, hL, ho ZIP_PATH (by decide) (by decide)⟩

/-- **C2 counterexample.** With two `.tflite` entries, enumerated as
`a.tflite` (content 1) and then `b.tflite` (content 2), the rename step
renames BOTH (two "Model saved" lines), and the canonical file ends up
with the content of the second enumerated match — not that of the first,
as the claim states. -/
theorem claim_C2_counterexample :
    renameFiles [("a.tflite", FileData.raw 1), ("b.tflite", FileData.raw 2)] [] =
      ([(MODEL_NAME, FileData.raw 2)], [MSG_MODEL_SAVED, MSG_MODEL_SAVED], none) ∧
    lookupD (renameFiles
      [("a.tflite", FileData.raw 1), ("b.tflite", FileData.raw 2)] []).1 MODEL_NAME =
      some (FileData.raw 2) ∧
    FileData.raw 2 ≠ FileData.raw 1 :=
  ⟨by decide, by decide, by decide⟩

/-- **C2 (amended).** The rename step scans the enumeration exactly once,
but every matching entry (not only the first) is renamed to the canonical
name, each move overwriting the previous one: afterwards each canonical
name holds the content of the *last* enumerated match of its rule (stated
for directories that do not already contain a canonically-named file). -/
theorem claim_C2_last_match_wins (d : Dir) (ms0 : List String)
    (hnd : (listdir d).Nodup)
    (hM : MODEL_NAME ∉ listdir d) (hL : LABEL_NAME ∉ listdir d) :
    ∃ d' ms', renameFiles d ms0 = (d', ms', none) ∧
      lookupD d' MODEL_NAME =
        (match lastMatch matchesModel (listdir d) with
          | some n => lookupD d n
          | none => lookupD d MODEL_NAME) ∧
      lookupD d' LABEL_NAME =
        (match lastMatch matchesLabel (listdir d) with
          | some n => lookupD d n
          | none => lookupD d LABEL_NAME) :=
  renameGo_last_match (listdir d) d ms0 hnd hM hL
    (fun n hn => (mem_listdir_iff d n).mp hn)

/-- Witness for the amended C2: with matches `a.tflite`, `b.tflite` and
`some_labels.txt`, the canonical model file receives the content of
`b.tflite` (the last model match) and the canonical label file that of
`some_labels.txt`. -/
theorem claim_C2_witness :
    (renameFiles [("a.tflite", FileData.raw 1), ("b.tflite", FileData.raw 2),
      ("some_labels.txt", FileData.raw 3)] []).2.2 = none ∧
    lookupD (renameFiles [("a.tflite", FileData.raw 1), ("b.tflite", FileData.raw 2),
      ("some_labels.txt", FileData.raw 3)] []).1 MODEL_NAME = some (FileData.raw 2) ∧
    lookupD (renameFiles [("a.tflite", FileData.raw 1), ("b.tflite", FileData.raw 2),
      ("some_labels.txt", FileData.raw 3)] []).1 LABEL_NAME = some (FileData.raw 3) := by
  obtain ⟨d', ms', heq, hM, hL⟩ := claim_C2_last_match_wins
    [("a.tflite", FileData.raw 1), ("b.tflite", FileData.raw 2),
      ("some_labels.txt", FileData.raw 3)] [] (by decide) (by decide) (by decide)
  rw [heq]
  refine ⟨rfl, ?_, ?_⟩
  · show lookupD d' MODEL_NAME = some (FileData.raw 2)
    rw [hM]
    decide
  · show lookupD d' LABEL_NAME = some (FileData.raw 3)
    rw [hL]
    decide

/-- **C3 counterexample.** An archive with a single entry matching neither
rule runs to the success exit with the completion message, although
neither canonical file is present — so success is *not* conditioned on the
canonical files being confirmed present. -/
theorem claim_C3_counterexample :
    (run (some (FileData.zipArchive [("readme.md", 7)])) []).err = none ∧
    (run (some (FileData.zipArchive [("readme.md", 7)])) []).msgs.getLast? =
      some MSG_DONE ∧
    lookupD (run (some (FileData.zipArchive [("readme.md", 7)])) []).dir MODEL_NAME =
      none ∧
    lookupD (run (some (FileData.zipArchive [("readme.md", 7)])) []).dir LABEL_NAME =
      none :=
  ⟨by decide, by decide, by decide, by decide⟩

/-- **C3 (amended).** The script exits with a failure status carrying the
propagated error whenever the download or the archive open fails, and it
exits with a success status and the completion message whenever every step
completes — without confirming that the canonical files are present. -/
theorem claim_C3_exit_behavior (d0 : Dir) (hnd : (listdir d0).Nodup) :
    (run none d0).err = some PipeError.urlError ∧
    (∀ b, (run (some (FileData.raw b)) d0).err = some PipeError.badZipFile) ∧
    (∀ es, (run (some (FileData.zipArchive es)) d0).err = none ∧
      (run (some (FileData.zipArchive es)) d0).msgs.getLast? = some MSG_DONE) := by
  refine ⟨rfl, ?_, ?_⟩
  · intro b
    rw [run_raw_eq]
  · intro es
    exact run_zip_ok d0 es hnd

/-- Witness for the amended C3 on concrete inputs of all three kinds. -/
theorem claim_C3_witness :
    (run none []).err = some PipeError.urlError ∧
    (run (some (FileData.raw 5)) []).err = some PipeError.badZipFile ∧
    (run (some (FileData.zipArchive [("x.tflite", 1)])) []).err = none := by
  obtain ⟨h1, h2, h3⟩ := claim_C3_exit_behavior [] (by simp [listdir])
  exact ⟨h1, h2 5, (h3 [("x.tflite", 1)]).1⟩

/-- **C4.** A download that is not a valid ZIP archive aborts the pipeline
with the archive-format error immediately after the extraction message:
the final directory is the initial one plus only the downloaded archive
(no rename or cleanup ran, and only the three pre-extraction status lines
were printed), and the canonical names are exactly as they were initially
— in particular not created. -/
theorem claim_C4_invalid_zip_aborts (b : Nat) (d0 : Dir) :
    run (some (FileData.raw b)) d0 =
      ⟨writeD d0 ZIP_PATH (FileData.raw b),
        [MSG_DOWNLOADING, MSG_COMPLETE, MSG_EXTRACTING], some PipeError.badZipFile⟩ ∧
    lookupD (run (some (FileData.raw b)) d0).dir MODEL_NAME =
      lookupD d0 MODEL_NAME ∧
    lookupD (run (some (FileData.raw b)) d0).dir LABEL_NAME =
      lookupD d0 LABEL_NAME := by
  refine ⟨run_raw_eq d0 b, ?_, ?_⟩
  · rw [run_raw_eq]
    exact lookupD_writeD_ne _ _ _ _ MODEL_ne_ZIP
  · rw [run_raw_eq]
    exact lookupD_writeD_ne _ _ _ _ LABEL_ne_ZIP

/-- Witness for C4: a concrete non-ZIP download. -/
theorem claim_C4_witness :
    run (some (FileData.raw 5)) [] =
      ⟨[(ZIP_PATH, FileData.raw 5)],
        [MSG_DOWNLOADING, MSG_COMPLETE, MSG_EXTRACTING], some PipeError.badZipFile⟩ ∧
    lookupD (run (some (FileData.raw 5)) []).dir MODEL_NAME = none := by
  obtain ⟨h1, h2, h3⟩ := claim_C4_invalid_zip_aborts 5 []
  exact ⟨h1, h2.trans rfl⟩

/-- **C5.** When no archive entry matches the model rule, the pipeline
still reaches the success exit, and the canonical model file is absent
from the (initially empty) assets directory afterwards. -/
theorem claim_C5_no_model_match (es : List (Name × Nat))
    (h : ∀ n ∈ es.map Prod.fst, matchesModel n = false) :
    (run (some (FileData.zipArchive es)) []).err = none ∧
    lookupD (run (some (FileData.zipArchive es)) []).dir MODEL_NAME = none := by
  obtain ⟨d3, ms3, hgo, hfin⟩ := run_zip_shape [] es (by simp [listdir])
  have hall : ∀ n ∈ listdir (extractAll (writeD [] ZIP_PATH (FileData.zipArchive es)) es),
      matchesModel n = false := by
    intro n hn
    rcases mem_listdir_extractAll _ _ _ hn with hd | hs
    · have hz : n = ZIP_PATH := by
        simpa [writeD, listdir] using hd
      rw [hz]
      exact mm_ZIP
    · exact h n hs
  have hM2 : lookupD (extractAll (writeD [] ZIP_PATH (FileData.zipArchive es)) es)
      MODEL_NAME = none := by
    apply lookupD_eq_none_of_not_mem
    intro hc
    have := hall MODEL_NAME hc
    rw [mm_MODEL] at this
    cases this
  have hp := renameGo_preserve_MODEL
    (listdir (extractAll (writeD [] ZIP_PATH (FileData.zipArchive es)) es))
    (extractAll (writeD [] ZIP_PATH (FileData.zipArchive es)) es)
    [MSG_DOWNLOADING, MSG_COMPLETE, MSG_EXTRACTING] hall
  rw [hgo] at hp
  rw [hfin]
  refine ⟨rfl, ?_⟩
  rw [lookupD_removeD_ne _ _ _ MODEL_ne_ZIP]
  exact (show lookupD d3 MODEL_NAME = _ from hp).trans hM2

/-- Witness for C5: an archive holding only `labelmap.txt`. -/
theorem claim_C5_witness :
    (run (some (FileData.zipArchive [("labelmap.txt", 2)])) []).err = none ∧
    lookupD (run (some (FileData.zipArchive [("labelmap.txt", 2)])) []).dir
      MODEL_NAME = none :=
  claim_C5_no_model_match [("labelmap.txt", 2)] (by decide)

/-- **C6.** Interface idempotence: with the same two-entry archive coming
from the fixed URL, a second run after a successful first run also
succeeds, and every lookup in the resulting directory agrees with the
directory after the first run (the canonical files are overwritten, not
duplicated). -/
theorem claim_C6_idempotent (nm nl : Name) (cm cl : Nat) (es : List (Name × Nat))
    (hm : matchesModel nm = true) (hl : matchesLabel nl = true)
    (hes : es = [(nm, cm), (nl, cl)] ∨ es = [(nl, cl), (nm, cm)]) :
    (run (some (FileData.zipArchive es)) []).err = none ∧
    (run (some (FileData.zipArchive es))
      (run (some (FileData.zipArchive es)) []).dir).err = none ∧
    ∀ n, lookupD (run (some (FileData.zipArchive es))
        (run (some (FileData.zipArchive es)) []).dir).dir n =
      lookupD (run (some (FileData.zipArchive es)) []).dir n := by
  obtain ⟨he1, hn1, hM1, hL1, ho1⟩ := run_twoEntry nm nl cm cl es [] hm hl hes
    (by simp [listdir]) (by simp [listdir])
  have hnone1 : ∀ n, n ≠ MODEL_NAME → n ≠ LABEL_NAME →
      lookupD (run (some (FileData.zipArchive es)) []).dir n = none := by
    intro n hM hL
    rw [ho1 n hM hL]
    by_cases hc : matchesModel n = true ∨ matchesLabel n = true ∨ n = ZIP_PATH
    · rw [if_pos hc]
    · rw [if_neg hc]
      rfl
  have hcompat : ∀ n ∈ listdir (run (some (FileData.zipArchive es)) []).dir,
      (matchesModel n = true →
        lookupD (run (some (FileData.zipArchive es)) []).dir n =
          some (FileData.raw cm)) ∧
      (matchesLabel n = true →
        lookupD (run (some (FileData.zipArchive es)) []).dir n =
          some (FileData.raw cl)) := by
    intro n hn
    by_cases hM : n = MODEL_NAME
    · subst hM
      refine ⟨fun _ => hM1, ?_⟩
      intro hc
      rw [ml_MODEL] at hc
      cases hc
    · by_cases hL : n = LABEL_NAME
      · subst hL
        refine ⟨?_, fun _ => hL1⟩
        intro hc
        rw [mm_LABEL] at hc
        cases hc
      · exfalso
        have hs := (mem_listdir_iff _ n).mp hn
        rw [hnone1 n hM hL] at hs
        cases hs
  obtain ⟨he2, hn2, hM2, hL2, ho2⟩ := run_twoEntry nm nl cm cl es
    (run (some (FileData.zipArchive es)) []).dir hm hl hes hn1 hcompat
  refine ⟨he1, he2, ?_⟩
  intro n
  by_cases hM : n = MODEL_NAME
  · subst hM
    rw [hM2, hM1]
  · by_cases hL : n = LABEL_NAME
    · subst hL
      rw [hL2, hL1]
    · rw [ho2 n hM hL, hnone1 n hM hL]
      by_cases hc : matchesModel n = true ∨ matchesLabel n = true ∨ n = ZIP_PATH
      · rw [if_pos hc]
      · rw [if_neg hc]

/-- Witness for C6 at the spec's scenario archive, checked at the
canonical model name. -/
theorem claim_C6_witness :
    (run (some (FileData.zipArchive [("detect.tflite", 1), ("labelmap.txt", 2)])) []).err =
      none ∧
    (run (some (FileData.zipArchive [("detect.tflite", 1), ("labelmap.txt", 2)]))
      (run (some (FileData.zipArchive
        [("detect.tflite", 1), ("labelmap.txt", 2)])) []).dir).err = none ∧
    lookupD (run (some (FileData.zipArchive [("detect.tflite", 1), ("labelmap.txt", 2)]))
        (run (some (FileData.zipArchive
          [("detect.tflite", 1), ("labelmap.txt", 2)])) []).dir).dir MODEL_NAME =
      lookupD (run (some (FileData.zipArchive
        [("detect.tflite", 1), ("labelmap.txt", 2)])) []).dir MODEL_NAME := by
  obtain ⟨h1, h2, h3⟩ := claim_C6_idempotent "detect.tflite" "labelmap.txt" 1 2
    [("detect.tflite", 1), ("labelmap.txt", 2)] (by decide) (by decide) (Or.inl rfl)
  exact ⟨h1, h2, h3 MODEL_NAME⟩

/-- **C7.** The cleanup step is unguarded: when the archive file is
already missing, `os.remove` raises, the script aborts with that error,
the final message is not printed and the directory is left as it was —
the missing file is *not* treated as a no-op success. -/
theorem claim_C7_cleanup_unguarded (d : Dir) (ms : List String)
    (h : lookupD d ZIP_PATH = none) :
    cleanupStep d ms = ⟨d, ms, some (PipeError.fileNotFound ZIP_PATH)⟩ := by
  simp only [cleanupStep, osRemove]
  rw [h]

/-- Witness for C7: cleanup on an empty directory. -/
theorem claim_C7_witness :
    lookupD [] ZIP_PATH = none ∧
    cleanupStep [] [] = ⟨[], [], some (PipeError.fileNotFound ZIP_PATH)⟩ :=
  ⟨rfl, claim_C7_cleanup_unguarded [] [] rfl⟩

/-- **C8 counterexample.** The spec's suggested hostile entry names do not
escape the target directory: `../evil.txt` would escape if the raw split
were used, but the sanitization used by `extractall` reduces it to
`evil.txt` inside the target, and the absolute `/etc/passwd` becomes the
relative `etc/passwd`. -/
theorem claim_C8_counterexample :
    escapesTarget (splitSlash "../evil.txt".data) = true ∧
    sanitizeParts "../evil.txt".data = ["evil.txt".data] ∧
    escapesTarget (sanitizeParts "../evil.txt".data) = false ∧
    sanitizeParts "/etc/passwd".data = ["etc".data, "passwd".data] ∧
    escapesTarget (sanitizeParts "/etc/passwd".data) = false :=
  ⟨by decide, by decide, by decide, by decide, by decide⟩

/-- **C8 (amended).** Extraction sanitizes every entry name — absolute
prefixes and empty, `.` and `..` components are dropped before joining
under the target directory — so no archive entry is ever written to a
location that resolves outside the target directory. -/
theorem claim_C8_sanitized_no_escape (name : List Char) :
    escapesTarget (sanitizeParts name) = false :=
  escapes_eq_false_of_no_ascent (sanitizeParts name) (sanitizeParts_no_ascent name) 0

/-- Witness for the amended C8 at an ordinary nested entry name. -/
theorem claim_C8_witness :
    escapesTarget (sanitizeParts "sub/dir/file.txt".data) = false :=
  claim_C8_sanitized_no_escape "sub/dir/file.txt".data

/-- **C9.** Frame property of the rename step: any name matching neither
rule is left in place with its content unchanged (only matching entries
are moved). -/
theorem claim_C9_frame (d : Dir) (ms0 : List String) (n : Name)
    (h1 : matchesModel n = false) (h2 : matchesLabel n = false) :
    lookupD (renameFiles d ms0).1 n = lookupD d n :=
  renameGo_preserve_nonmatch (listdir d) d ms0 n h1 h2

/-- Witness for C9: `readme.md` survives a rename pass untouched. -/
theorem claim_C9_witness :
    matchesModel "readme.md" = false ∧ matchesLabel "readme.md" = false ∧
    lookupD (renameFiles
      [("readme.md", FileData.raw 5), ("a.tflite", FileData.raw 1)] []).1 "readme.md" =
      lookupD [("readme.md", FileData.raw 5), ("a.tflite", FileData.raw 1)] "readme.md" :=
  ⟨by decide, by decide,
    claim_C9_frame [("readme.md", FileData.raw 5), ("a.tflite", FileData.raw 1)] []
      "readme.md" (by decide) (by decide)⟩

/-- **C10.** Rule precedence in the `if/elif`: a name satisfying the model
rule is always handled by the model branch — the canonical model name
receives its content, the canonical label file is untouched, and the
printed line is the model one; moreover the label rule can never hold of a
`.tflite` name at all (its `.txt` suffix requirement clashes). -/
theorem claim_C10_precedence (d : Dir) (ms : List String) (f : Name)
    (hf : matchesModel f = true) :
    (∀ d' ms', renameStep d ms f = ((d', ms'), none) →
      lookupD d' MODEL_NAME = lookupD d f ∧
      lookupD d' LABEL_NAME = lookupD d LABEL_NAME ∧
      ms' = ms ++ [MSG_MODEL_SAVED]) ∧
    matchesLabel f = false := by
  refine ⟨?_, label_of_model f hf⟩
  intro d' ms' heq
  cases hv : lookupD d f with
  | none =>
    rw [renameStep, if_pos hf] at heq
    simp only [moveFile, hv] at heq
    have hsnd := congrArg Prod.snd heq
    simp at hsnd
  | some v =>
    rw [renameStep_model d ms f v hf hv] at heq
    have hd' : writeD (removeD d f) MODEL_NAME v = d' := congrArg (fun x => x.1.1) heq
    have hms' : ms ++ [MSG_MODEL_SAVED] = ms' := congrArg (fun x => x.1.2) heq
    refine ⟨?_, ?_, hms'.symm⟩
    · rw [← hd', lookupD_writeD_self]
    · rw [← hd',
        lookupD_writeD_ne _ _ _ _ (Ne.symm MODEL_ne_LABEL),
        lookupD_removeD_ne _ _ _ (Ne.symm (ne_of_model_tf hf mm_LABEL))]

/-- Witness for C10: `special_labels.tflite` contains "label" yet is
classified as the model file. -/
theorem claim_C10_witness :
    matchesModel "special_labels.tflite" = true ∧
    containsSub "label".data ("special_labels.tflite".data.map Char.toLower) = true ∧
    lookupD [(MODEL_NAME, FileData.raw 9)] MODEL_NAME =
      lookupD [("special_labels.tflite", FileData.raw 9)] "special_labels.tflite" ∧
    lookupD [(MODEL_NAME, FileData.raw 9)] LABEL_NAME =
      lookupD [("special_labels.tflite", FileData.raw 9)] LABEL_NAME := by
  obtain ⟨hmain, hlab⟩ := claim_C10_precedence
    [("special_labels.tflite", FileData.raw 9)] [] "special_labels.tflite" (by decide)
  obtain ⟨h1, h2, h3⟩ := hmain [(MODEL_NAME, FileData.raw 9)] [MSG_MODEL_SAVED] (by decide)
  exact ⟨by decide, by decide, h1, h2⟩

end DownloadModel
